import Mathlib

/-!
Verification of the signed 64-bit arithmetic code generator
(`src/arithmetic/sinteger.py` and `src/arithmetic/parametrizedleafexpr.py`).

The generator builds expression trees over an abstract stack machine
(the target interface of §6 of the specification).  We embed:

* the target instruction set and its small-step evaluator (`Instr`, `run`);
* the expression-tree node types used by the source (`Expr`), with the
  lowering pass (operand code in order, then the opcode) and declared
  output types (`lower`, `typeOf`);
* the tree builders `SInt`, `SInt_Add`, `SInt_Sub`, `SInt_rshift`,
  `SInt_twos_complement` and the node class `ParametrizedLeafExpr`,
  translated line by line from the source.
-/

namespace PyTealUtils

/-- Target machine instructions, modelled from the spec §6 instruction
table (the execution target is an external collaborator of the
repository).  `int v` is push-constant, `cover`/`uncover` carry their
immediate depth argument, `ite` is the value-producing conditional whose
arms are instruction sequences, `assert_` is abort-if-false.  Bitwise and
shift instructions act on unsigned 64-bit words (values mod `2^64`);
`getbit`, `shr`, `shl` and `minus` take their numeric argument from the
top of the stack, as emitted by the source. -/
inductive Instr where
  | int (v : Nat)
  | dup
  | swap
  | pop
  | cover (n : Nat)
  | uncover (n : Nat)
  | getbit
  | addw
  | bitwise_xor
  | bitwise_or
  | logic_not
  | logic_or
  | assert_
  | shr
  | shl
  | minus
  | ite (thenB elseB : List Instr)
  deriving Repr

mutual

/-- Execute one instruction on a stack (head of the list is the top of
the stack).  `none` is dynamic failure: the abort instruction with a
false operand, or a stack too shallow for the instruction. -/
def runInstr : Instr → List Nat → Option (List Nat)
  | .int v, s => some (v :: s)
  | .dup, x :: s => some (x :: x :: s)
  | .dup, [] => none
  | .swap, x :: y :: s => some (y :: x :: s)
  | .swap, _ => none
  | .pop, _ :: s => some s
  | .pop, [] => none
  | .cover n, x :: s =>
      if n ≤ s.length then some (s.take n ++ x :: s.drop n) else none
  | .cover _, [] => none
  | .uncover n, s =>
      match s.drop n with
      | x :: _ => some (x :: (s.take n ++ s.drop (n + 1)))
      | [] => none
  | .getbit, i :: a :: s => some ((a / 2 ^ i) % 2 :: s)
  | .getbit, _ => none
  | .addw, b :: a :: s => some ((a + b) % 2 ^ 64 :: (a + b) / 2 ^ 64 :: s)
  | .addw, _ => none
  | .bitwise_xor, b :: a :: s => some ((a ^^^ b) :: s)
  | .bitwise_xor, _ => none
  | .bitwise_or, b :: a :: s => some ((a ||| b) :: s)
  | .bitwise_or, _ => none
  | .logic_not, a :: s => some ((if a = 0 then 1 else 0) :: s)
  | .logic_not, [] => none
  | .logic_or, b :: a :: s => some ((if a ≠ 0 ∨ b ≠ 0 then 1 else 0) :: s)
  | .logic_or, _ => none
  | .assert_, a :: s => if a ≠ 0 then some s else none
  | .assert_, [] => none
  | .shr, b :: a :: s => some (a / 2 ^ b :: s)
  | .shr, _ => none
  | .shl, b :: a :: s => some (a * 2 ^ b % 2 ^ 64 :: s)
  | .shl, _ => none
  | .minus, b :: a :: s => if b ≤ a then some ((a - b) :: s) else none
  | .minus, _ => none
  | .ite t e, c :: s => if c ≠ 0 then run t s else run e s
  | .ite _ _, [] => none

/-- Execute an instruction sequence on a stack. -/
def run : List Instr → List Nat → Option (List Nat)
  | [], s => some s
  | i :: is, s =>
      match runInstr i s with
      | some s' => run is s'
      | none => none

end

/-- Declared node output types (the fragment of the external framework's
type tags used by the source). -/
inductive TealType where
  | uint64
  | anytype
  deriving Repr, DecidableEq

/-- Expression-tree nodes, the compile-time representation built by the
source: `intE` is a pyteal `Int` literal node, `unaryExpr`/`binaryExpr`
are the external framework's node classes (operands lowered in order,
then the opcode), `parametrizedLeafExpr` is the repository's
`ParametrizedLeafExpr` (an opcode with immediate arguments plus an
ordered list of operand sub-nodes), and `ifExpr` is the value-producing
conditional. -/
inductive Expr where
  | intE (v : Nat)
  | unaryExpr (op : Instr) (inputType outputType : TealType) (input : Expr)
  | binaryExpr (op : Instr) (inputType outputType : TealType) (left right : Expr)
  | parametrizedLeafExpr (op : Instr) (output_type : TealType) (expr_inputs : List Expr)
  | ifExpr (cond thenB elseB : Expr)
  deriving Repr

mutual

/-- Lower an expression tree to a linear instruction sequence: operand
code in the given order, then the node's own opcode (the external
framework's `TealBlock.FromOp` contract, spec §4.2/§5). -/
def lower : Expr → List Instr
  | .intE v => [.int v]
  | .unaryExpr op _ _ a => lower a ++ [op]
  | .binaryExpr op _ _ a b => lower a ++ lower b ++ [op]
  | .parametrizedLeafExpr op _ ins => lowerList ins ++ [op]
  | .ifExpr c t e => lower c ++ [.ite (lower t) (lower e)]

/-- Lower a list of operand sub-trees in order. -/
def lowerList : List Expr → List Instr
  | [] => []
  | e :: es => lower e ++ lowerList es

end

/-- Declared output type of a node (`type_of` in the source); an
`ifExpr` reports its then-branch's type. -/
def typeOf : Expr → TealType
  | .intE _ => .uint64
  | .unaryExpr _ _ ot _ => ot
  | .binaryExpr _ _ ot _ _ => ot
  | .parametrizedLeafExpr _ ot _ => ot
  | .ifExpr _ t _ => typeOf t

/-- Signed range of 64-bit two's complement. -/
def inRange (n : Int) : Prop := -2 ^ 63 ≤ n ∧ n ≤ 2 ^ 63 - 1

instance (n : Int) : Decidable (inRange n) :=
  inferInstanceAs (Decidable (-2 ^ 63 ≤ n ∧ n ≤ 2 ^ 63 - 1))

/-- Two's-complement encoding computed by `SInt` (source lines 38-42):
for a negative value, `((|n| XOR (2^64-1)) + 1) mod 2^64`; otherwise the
value itself. -/
def encode (value : Int) : Nat :=
  if value < 0 then ((value.natAbs ^^^ (2 ^ 64 - 1)) + 1) % 2 ^ 64
  else value.toNat

/-- Modelled from the spec: `ValueEncoder.decode` (§4.1) is absent from
the source (only `encode` exists); the spec describes it as the inverse
mapping that interprets bit 63 as the sign. -/
def decode (w : Nat) : Int :=
  if 2 ^ 63 ≤ w then (w : Int) - 2 ^ 64 else (w : Int)

/-- Host-language value passed to `SInt`: an integer, or a value of some
other host type (the `isinstance` check in the source distinguishes
exactly these). -/
inductive PyVal where
  | int (n : Int)
  | nonInt
  deriving Repr, DecidableEq

/-- Construction-time failures of `SInt`: `typeError` for a non-integer
argument, `rangeError` (the source's `ValueError`, the spec's
`RangeError`) for an integer outside the signed 64-bit range. -/
inductive PyErr where
  | typeError
  | rangeError
  deriving Repr, DecidableEq

/-- Tree constructor `SInt` (source lines 32-42): validates its host
argument, then returns a push-constant node holding the two's-complement
encoding. -/
def SInt : PyVal → Except PyErr Expr
  | .nonInt => .error .typeError
  | .int n =>
      if ¬(-2 ^ 63 ≤ n ∧ n ≤ 2 ^ 63 - 1) then .error .rangeError
      else .ok (.intE (encode n))

/-- Overflow-checked signed addition `SInt_Add` (source lines 53-95),
translated node by node. -/
def SInt_Add (left right : Expr) : Expr :=
  let e1 := Expr.unaryExpr .dup .uint64 .uint64 left
  let e2 := Expr.binaryExpr .getbit .uint64 .uint64 e1 (.intE 63)
  let e3 := Expr.unaryExpr .dup .uint64 .uint64 e2
  let e4 := Expr.parametrizedLeafExpr (.uncover 2) .uint64 [e3]
  let e5 := Expr.binaryExpr .dup .uint64 .uint64 e4 right
  let e6 := Expr.binaryExpr .getbit .uint64 .uint64 e5 (.intE 63)
  let e7 := Expr.parametrizedLeafExpr (.cover 3) .uint64 [e6]
  let e8 := Expr.unaryExpr .addw .uint64 .uint64 e7
  let e9 := Expr.unaryExpr .dup .uint64 .uint64 e8
  let e10 := Expr.binaryExpr .getbit .uint64 .uint64 e9 (.intE 63)
  let e11 := Expr.parametrizedLeafExpr (.cover 5) .uint64 [e10]
  let e12 := Expr.parametrizedLeafExpr (.cover 5) .uint64 [e11]
  let e13 := Expr.unaryExpr .pop .uint64 .uint64 e12
  let e14 := Expr.unaryExpr .bitwise_xor .uint64 .uint64 e13
  let e15 := Expr.parametrizedLeafExpr (.cover 2) .uint64 [e14]
  let e16 := Expr.unaryExpr .bitwise_xor .uint64 .uint64 e15
  let e17 := Expr.unaryExpr .logic_not .uint64 .uint64 e16
  let e18 := Expr.unaryExpr .logic_or .uint64 .uint64 e17
  Expr.unaryExpr .assert_ .uint64 .uint64 e18

/-- Two's-complement negation `SInt_twos_complement` (source lines
126-134): XOR with all ones, wide-add 1, swap, pop the carry. -/
def SInt_twos_complement (operand : Expr) : Expr :=
  let xorred := Expr.binaryExpr .bitwise_xor .uint64 .uint64 operand (.intE (2 ^ 64 - 1))
  let complemented := Expr.binaryExpr .addw .uint64 .uint64 xorred (.intE 1)
  let swapped := Expr.unaryExpr .swap .anytype .anytype complemented
  Expr.unaryExpr .pop .uint64 .uint64 swapped

/-- Signed subtraction `SInt_Sub` (source lines 98-100). -/
def SInt_Sub (left right : Expr) : Expr :=
  SInt_Add left (SInt_twos_complement right)

/-- Arithmetic right shift `SInt_rshift` (source lines 106-123): logical
shift, then conditionally OR in a mask of leading one bits built as
`(2^64-1) << (64 - right)`. -/
def SInt_rshift (left right : Expr) : Expr :=
  let e1 := Expr.unaryExpr .dup .uint64 .uint64 left
  let e2 := Expr.binaryExpr .getbit .uint64 .uint64 e1 (.intE 63)
  let e3 := Expr.parametrizedLeafExpr (.cover 1) .uint64 [e2]
  let e4 := Expr.binaryExpr .shr .uint64 .uint64 e3 right
  let e5 := Expr.parametrizedLeafExpr (.cover 1) .uint64 [e4]
  let e6 := Expr.ifExpr e5
    (Expr.binaryExpr .shl .uint64 .uint64 (.intE (2 ^ 64 - 1))
      (Expr.binaryExpr .minus .uint64 .uint64 (.intE 64) right))
    (.intE 0)
  Expr.unaryExpr .bitwise_or .uint64 .uint64 e6

/-! Simp lemmas for symbolic execution of `run`. -/

@[simp] theorem run_nil (s : List Nat) : run [] s = some s := by
  simp [run]

@[simp] theorem run_cons (i : Instr) (is : List Instr) (s : List Nat) :
    run (i :: is) s = (runInstr i s).bind (fun s' => run is s') := by
  cases h : runInstr i s <;> simp [run, h]

@[simp] theorem runInstr_int (v : Nat) (s : List Nat) :
    runInstr (.int v) s = some (v :: s) := by simp [runInstr]

@[simp] theorem runInstr_dup (x : Nat) (s : List Nat) :
    runInstr .dup (x :: s) = some (x :: x :: s) := by simp [runInstr]

@[simp] theorem runInstr_swap (x y : Nat) (s : List Nat) :
    runInstr .swap (x :: y :: s) = some (y :: x :: s) := by simp [runInstr]

@[simp] theorem runInstr_pop (x : Nat) (s : List Nat) :
    runInstr .pop (x :: s) = some s := by simp [runInstr]

@[simp] theorem runInstr_cover_one (x a : Nat) (s : List Nat) :
    runInstr (.cover 1) (x :: a :: s) = some (a :: x :: s) := by
  simp [runInstr]

@[simp] theorem runInstr_cover_two (x a b : Nat) (s : List Nat) :
    runInstr (.cover 2) (x :: a :: b :: s) = some (a :: b :: x :: s) := by
  simp [runInstr]

@[simp] theorem runInstr_cover_three (x a b c : Nat) (s : List Nat) :
    runInstr (.cover 3) (x :: a :: b :: c :: s) = some (a :: b :: c :: x :: s) := by
  simp [runInstr]

@[simp] theorem runInstr_cover_five (x a b c d e : Nat) (s : List Nat) :
    runInstr (.cover 5) (x :: a :: b :: c :: d :: e :: s)
      = some (a :: b :: c :: d :: e :: x :: s) := by
  simp [runInstr]

@[simp] theorem runInstr_uncover_two (a b c : Nat) (s : List Nat) :
    runInstr (.uncover 2) (a :: b :: c :: s) = some (c :: a :: b :: s) := by
  simp [runInstr, List.drop]

@[simp] theorem runInstr_getbit (i a : Nat) (s : List Nat) :
    runInstr .getbit (i :: a :: s) = some ((a / 2 ^ i) % 2 :: s) := by simp [runInstr]

@[simp] theorem runInstr_addw (b a : Nat) (s : List Nat) :
    runInstr .addw (b :: a :: s)
      = some ((a + b) % 2 ^ 64 :: (a + b) / 2 ^ 64 :: s) := by simp [runInstr]

@[simp] theorem runInstr_bitwise_xor (b a : Nat) (s : List Nat) :
    runInstr .bitwise_xor (b :: a :: s) = some ((a ^^^ b) :: s) := by simp [runInstr]

@[simp] theorem runInstr_bitwise_or (b a : Nat) (s : List Nat) :
    runInstr .bitwise_or (b :: a :: s) = some ((a ||| b) :: s) := by simp [runInstr]

@[simp] theorem runInstr_logic_not (a : Nat) (s : List Nat) :
    runInstr .logic_not (a :: s) = some ((if a = 0 then 1 else 0) :: s) := by
  simp [runInstr]

@[simp] theorem runInstr_logic_or (b a : Nat) (s : List Nat) :
    runInstr .logic_or (b :: a :: s) = some ((if a ≠ 0 ∨ b ≠ 0 then 1 else 0) :: s) := by
  simp [runInstr]

@[simp] theorem runInstr_assert (a : Nat) (s : List Nat) :
    runInstr .assert_ (a :: s) = if a ≠ 0 then some s else none := by
  simp [runInstr]

@[simp] theorem runInstr_shr (b a : Nat) (s : List Nat) :
    runInstr .shr (b :: a :: s) = some (a / 2 ^ b :: s) := by simp [runInstr]

@[simp] theorem runInstr_shl (b a : Nat) (s : List Nat) :
    runInstr .shl (b :: a :: s) = some (a * 2 ^ b % 2 ^ 64 :: s) := by simp [runInstr]

@[simp] theorem runInstr_minus (b a : Nat) (s : List Nat) (h : b ≤ a) :
    runInstr .minus (b :: a :: s) = some ((a - b) :: s) := by simp [runInstr, h]

@[simp] theorem runInstr_ite (t e : List Instr) (c : Nat) (s : List Nat) :
    runInstr (.ite t e) (c :: s) = if c ≠ 0 then run t s else run e s := by
  simp [runInstr]

/-! Arithmetic facts about the encoding. -/

/-- XOR with the all-ones word is complementation. -/
theorem xor_allOnes64 (m : Nat) (h : m < 2 ^ 64) :
    m ^^^ (2 ^ 64 - 1) = 2 ^ 64 - 1 - m := by
  have h1 : (BitVec.ofNat 64 m).toNat = m := by
    simpa [BitVec.toNat_ofNat] using Nat.mod_eq_of_lt h
  calc m ^^^ (2 ^ 64 - 1)
      = ((BitVec.ofNat 64 m) ^^^ BitVec.allOnes 64).toNat := by
        rw [BitVec.toNat_xor, h1, BitVec.toNat_allOnes]
    _ = (~~~(BitVec.ofNat 64 m)).toNat := by rw [BitVec.xor_allOnes]
    _ = 2 ^ 64 - 1 - m := by rw [BitVec.toNat_not, h1]

/-- The source's encoding agrees with reduction mod `2^64` on the signed
range. -/
theorem encode_spec (n : Int) (h : inRange n) :
    (encode n : Int) = n % 2 ^ 64 := by
  obtain ⟨h1, h2⟩ := h
  unfold encode
  split
  · rw [xor_allOnes64 n.natAbs (by omega)]
    omega
  · omega

/-- The encoding is a 64-bit word. -/
theorem encode_lt (n : Int) (h : inRange n) : encode n < 2 ^ 64 := by
  have := encode_spec n h
  omega

/-! Composition of instruction sequences. -/

theorem run_append (p q : List Instr) (s : List Nat) :
    run (p ++ q) s = (run p s).bind fun s' => run q s' := by
  induction p generalizing s with
  | nil => simp
  | cons i is ih =>
      rw [List.cons_append, run_cons, run_cons]
      cases h : runInstr i s <;> simp [ih]

theorem run_lower_intE (v : Nat) (t : List Nat) :
    run (lower (.intE v)) t = some (v :: t) := by
  simp [lower]

/-! Reduction helpers for branch conditions that have become literal. -/

theorem cond_one (X Y : Option (List Nat)) : (if (1 : Nat) ≠ 0 then X else Y) = X :=
  if_pos (by decide)

theorem cond_zero (X Y : Option (List Nat)) : (if (0 : Nat) ≠ 0 then X else Y) = Y :=
  if_neg (by decide)

/-! Execution of the instruction segments emitted by `SInt_Add`, each
general in the incoming stack. -/

/-- Step 1 of `SInt_Add` (after the first operand is on the stack):
duplicate it, extract its sign bit, duplicate the sign, move the operand
back on top. -/
theorem run_addSegA (v : Nat) (s : List Nat) :
    run [.dup, .int 63, .getbit, .dup, .uncover 2] (v :: s)
      = some (v :: v / 2 ^ 63 % 2 :: v / 2 ^ 63 % 2 :: s) := by
  simp only [run_cons, run_nil, runInstr_dup, runInstr_int, runInstr_getbit,
    runInstr_uncover_two, Option.some_bind]

/-- Step 2 of `SInt_Add` (after the second operand is pushed): duplicate
it, extract its sign bit, bury the sign, wide-add the two operands. -/
theorem run_addSegB (w v x y : Nat) (s : List Nat) :
    run [.dup, .int 63, .getbit, .cover 3, .addw] (w :: v :: x :: y :: s)
      = some ((v + w) % 2 ^ 64 :: (v + w) / 2 ^ 64 :: x :: w / 2 ^ 63 % 2 :: y :: s) := by
  simp only [run_cons, run_nil, runInstr_dup, runInstr_int, runInstr_getbit,
    runInstr_cover_three, runInstr_addw, Option.some_bind]

/-- Step 3 of `SInt_Add`: duplicate the low word, extract the result
sign, bury sign and low word, pop the carry. -/
theorem run_addSegC (l c x y z : Nat) (s : List Nat) :
    run [.dup, .int 63, .getbit, .cover 5, .cover 5, .pop] (l :: c :: x :: y :: z :: s)
      = some (x :: y :: z :: l / 2 ^ 63 % 2 :: l :: s) := by
  simp only [run_cons, run_nil, runInstr_dup, runInstr_int, runInstr_getbit,
    runInstr_cover_five, runInstr_pop, Option.some_bind]

/-- Step 4 of `SInt_Add`, first half: XOR the operand signs, XOR one
operand sign with the result sign. -/
theorem run_addSegD1 (x y z w l : Nat) (s : List Nat) :
    run [.bitwise_xor, .cover 2, .bitwise_xor] (x :: y :: z :: w :: l :: s)
      = some ((w ^^^ z) :: (y ^^^ x) :: l :: s) := by
  simp only [run_cons, run_nil, runInstr_bitwise_xor, runInstr_cover_two,
    Option.some_bind]

/-- Step 4 of `SInt_Add`, second half: the no-overflow predicate
`(signs differ) OR (XNOR of first-operand sign and result sign)` feeds
the abort instruction; the sum survives exactly when it holds. -/
theorem run_addSegD2 (p q l : Nat) (s : List Nat) :
    run [.logic_not, .logic_or, .assert_] (p :: q :: l :: s)
      = if q ≠ 0 ∨ p = 0 then some (l :: s) else none := by
  by_cases hp : p = 0 <;> by_cases hq : q = 0 <;>
    simp [run_cons, runInstr_logic_not, runInstr_logic_or, runInstr_assert,
      hp, hq]

/-- Lowering `SInt_Add` embeds each operand's code exactly once, in
operand order, around fixed instruction segments. -/
theorem lower_SInt_Add (L R : Expr) :
    lower (SInt_Add L R) =
      lower L ++ ([.dup, .int 63, .getbit, .dup, .uncover 2] ++ (lower R ++
        ([.dup, .int 63, .getbit, .cover 3, .addw] ++
          ([.dup, .int 63, .getbit, .cover 5, .cover 5, .pop] ++
            ([.bitwise_xor, .cover 2, .bitwise_xor] ++
              [.logic_not, .logic_or, .assert_]))))) := by
  simp [SInt_Add, lower, lowerList]

/-- Running the code of `SInt_Add L R`, for operand codes that each push
one value: the wrapped 64-bit sum survives exactly when the machine's
sign-bit predicate holds. -/
theorem SInt_Add_run (L R : Expr) (vA vB : Nat)
    (hL : ∀ t, run (lower L) t = some (vA :: t))
    (hR : ∀ t, run (lower R) t = some (vB :: t)) (s : List Nat) :
    run (lower (SInt_Add L R)) s =
      if vB / 2 ^ 63 % 2 ^^^ vA / 2 ^ 63 % 2 ≠ 0 ∨
          (vA + vB) % 2 ^ 64 / 2 ^ 63 % 2 ^^^ vA / 2 ^ 63 % 2 = 0
      then some ((vA + vB) % 2 ^ 64 :: s) else none := by
  rw [lower_SInt_Add, run_append, hL, Option.some_bind,
    run_append, run_addSegA, Option.some_bind,
    run_append, hR, Option.some_bind,
    run_append, run_addSegB, Option.some_bind,
    run_append, run_addSegC, Option.some_bind,
    run_append, run_addSegD1, Option.some_bind,
    run_addSegD2]

/-! Arithmetic characterisation of the overflow predicate. -/

theorem xor_one_one : (1 : Nat) ^^^ 1 = 0 := by decide

theorem xor_one_zero : (1 : Nat) ^^^ 0 = 1 := by decide

theorem xor_zero_one : (0 : Nat) ^^^ 1 = 1 := by decide

theorem xor_zero_zero : (0 : Nat) ^^^ 0 = 0 := by decide

/-- The machine's sign-bit predicate holds iff the mathematical sum is
representable. -/
theorem add_pred_iff (a b : Int) (ha : inRange a) (hb : inRange b) :
    (encode b / 2 ^ 63 % 2 ^^^ encode a / 2 ^ 63 % 2 ≠ 0 ∨
      (encode a + encode b) % 2 ^ 64 / 2 ^ 63 % 2 ^^^ encode a / 2 ^ 63 % 2 = 0)
      ↔ inRange (a + b) := by
  have hA := encode_spec a ha
  have hB := encode_spec b hb
  obtain ⟨ha1, ha2⟩ := ha
  obtain ⟨hb1, hb2⟩ := hb
  generalize hga : encode a = A at hA
  generalize hgb : encode b = B at hB
  rcases lt_or_ge a 0 with hsa | hsa <;> rcases lt_or_ge b 0 with hsb | hsb
  · -- both negative: overflow iff the low word's sign bit is clear
    have h1 : A / 2 ^ 63 % 2 = 1 := by omega
    have h2 : B / 2 ^ 63 % 2 = 1 := by omega
    rcases (show (A + B) % 2 ^ 64 / 2 ^ 63 % 2 = 0 ∨ (A + B) % 2 ^ 64 / 2 ^ 63 % 2 = 1
        by omega) with h3 | h3
    · rw [h1, h2, h3, xor_one_one, xor_zero_one]
      constructor
      · rintro (hc | hc) <;> omega
      · rintro ⟨k1, k2⟩
        exfalso
        omega
    · rw [h1, h2, h3, xor_one_one]
      constructor
      · intro _
        exact ⟨by omega, by omega⟩
      · intro _
        right
        rfl
  · -- negative plus non-negative never overflows
    have h1 : A / 2 ^ 63 % 2 = 1 := by omega
    have h2 : B / 2 ^ 63 % 2 = 0 := by omega
    rw [h1, h2, xor_zero_one]
    constructor
    · intro _
      exact ⟨by omega, by omega⟩
    · intro _
      left
      exact one_ne_zero
  · -- non-negative plus negative never overflows
    have h1 : A / 2 ^ 63 % 2 = 0 := by omega
    have h2 : B / 2 ^ 63 % 2 = 1 := by omega
    rw [h1, h2, xor_one_zero]
    constructor
    · intro _
      exact ⟨by omega, by omega⟩
    · intro _
      left
      exact one_ne_zero
  · -- both non-negative: overflow iff the low word's sign bit is set
    have h1 : A / 2 ^ 63 % 2 = 0 := by omega
    have h2 : B / 2 ^ 63 % 2 = 0 := by omega
    rcases (show (A + B) % 2 ^ 64 / 2 ^ 63 % 2 = 0 ∨ (A + B) % 2 ^ 64 / 2 ^ 63 % 2 = 1
        by omega) with h3 | h3
    · rw [h1, h2, h3, xor_zero_zero]
      constructor
      · intro _
        exact ⟨by omega, by omega⟩
      · intro _
        right
        rfl
    · rw [h1, h2, h3, xor_zero_zero, xor_one_zero]
      constructor
      · rintro (hc | hc) <;> omega
      · rintro ⟨k1, k2⟩
        exfalso
        omega

/-- The low word of the wide addition is the encoding of the sum, when
the sum is representable. -/
theorem add_low (a b : Int) (ha : inRange a) (hb : inRange b)
    (hab : inRange (a + b)) :
    (encode a + encode b) % 2 ^ 64 = encode (a + b) := by
  have hA := encode_spec a ha
  have hB := encode_spec b hb
  have hC := encode_spec (a + b) hab
  omega

/-! Execution of `SInt_twos_complement`. -/

theorem lower_twos_complement (R : Expr) :
    lower (SInt_twos_complement R)
      = lower R ++ [.int (2 ^ 64 - 1), .bitwise_xor, .int 1, .addw, .swap, .pop] := by
  simp [SInt_twos_complement, lower, lowerList]

theorem run_negSeg (v : Nat) (s : List Nat) :
    run [.int (2 ^ 64 - 1), .bitwise_xor, .int 1, .addw, .swap, .pop] (v :: s)
      = some (((v ^^^ (2 ^ 64 - 1)) + 1) % 2 ^ 64 :: s) := by
  simp only [run_cons, run_nil, runInstr_int, runInstr_bitwise_xor, runInstr_addw,
    runInstr_swap, runInstr_pop, Option.some_bind]

theorem SInt_twos_complement_run (R : Expr) (vB : Nat)
    (hR : ∀ t, run (lower R) t = some (vB :: t)) (t : List Nat) :
    run (lower (SInt_twos_complement R)) t
      = some (((vB ^^^ (2 ^ 64 - 1)) + 1) % 2 ^ 64 :: t) := by
  rw [lower_twos_complement, run_append, hR, Option.some_bind, run_negSeg]

/-- Bit-pattern negation computes the encoding of the negated value,
away from the minimum. -/
theorem negate_value (b : Int) (hb : inRange b) (hmin : b ≠ -2 ^ 63) :
    ((encode b ^^^ (2 ^ 64 - 1)) + 1) % 2 ^ 64 = encode (-b) := by
  have hB := encode_spec b hb
  have hlt := encode_lt b hb
  have hnb : inRange (-b) := by
    obtain ⟨h1, h2⟩ := hb
    exact ⟨by omega, by omega⟩
  have hN := encode_spec (-b) hnb
  rw [xor_allOnes64 _ hlt]
  omega

/-- Bit-pattern negation fixes the minimum value's encoding. -/
theorem negate_min :
    ((encode (-2 ^ 63) ^^^ (2 ^ 64 - 1)) + 1) % 2 ^ 64 = encode (-2 ^ 63) := by
  have hB : encode (-2 ^ 63) = 2 ^ 63 := by
    have := encode_spec (-2 ^ 63) ⟨by omega, by omega⟩
    omega
  rw [hB, xor_allOnes64 _ (by norm_num)]
  norm_num

/-! Claim theorems. -/

/-- C1: for in-range operands, the code emitted by `SInt_Add` leaves the
encoding of the mathematical sum on the stack when that sum is
representable in the signed 64-bit range, and aborts (the emitted
assert sees the no-overflow predicate evaluate to 0) exactly when it is
not: the generated program traps iff the sum overflows. -/
theorem SInt_Add_exec (a b : Int) (ha : inRange a) (hb : inRange b) :
    run (lower (SInt_Add (.intE (encode a)) (.intE (encode b)))) []
      = if inRange (a + b) then some [encode (a + b)] else none := by
  rw [SInt_Add_run (.intE (encode a)) (.intE (encode b)) (encode a) (encode b)
    (run_lower_intE (encode a)) (run_lower_intE (encode b))]
  by_cases hio : inRange (a + b)
  · rw [if_pos ((add_pred_iff a b ha hb).mpr hio), if_pos hio, add_low a b ha hb hio]
  · rw [if_neg (fun hc => hio ((add_pred_iff a b ha hb).mp hc)), if_neg hio]

/-- Witness for C1 at the spec's scenario `Add(12, -1) = 11`. -/
theorem SInt_Add_exec_witness :
    inRange (12 : Int) ∧ inRange (-1 : Int) ∧
      run (lower (SInt_Add (.intE (encode 12)) (.intE (encode (-1))))) []
        = if inRange (12 + -1 : Int) then some [encode (12 + -1 : Int)] else none :=
  ⟨by decide, by decide, SInt_Add_exec 12 (-1) (by decide) (by decide)⟩

/-- C5: the code emitted by `SInt_twos_complement` yields the encoding of
the negated value for every representable operand other than the minimum,
and performs no overflow check: on the minimum value it silently yields
the operand's own bit pattern back. -/
theorem SInt_twos_complement_exec (a : Int) (ha : inRange a) :
    run (lower (SInt_twos_complement (.intE (encode a)))) []
      = some [if a = -2 ^ 63 then encode a else encode (-a)] := by
  rw [SInt_twos_complement_run (.intE (encode a)) (encode a) (run_lower_intE (encode a))]
  by_cases hmin : a = -2 ^ 63
  · subst hmin
    rw [if_pos rfl, negate_min]
  · rw [if_neg hmin, negate_value a ha hmin]

/-- Witness for C5 at `a = 5` (yields `encode (-5)`). -/
theorem SInt_twos_complement_exec_witness :
    inRange (5 : Int) ∧
      run (lower (SInt_twos_complement (.intE (encode 5)))) []
        = some [if (5 : Int) = -2 ^ 63 then encode 5 else encode (-5)] :=
  ⟨by decide, SInt_twos_complement_exec 5 (by decide)⟩

/-- C6: `SInt_Sub L R` is definitionally the tree
`SInt_Add L (SInt_twos_complement R)`, so the emitted program inherits
the addition's overflow trap; executing it on representable operands
with a representable difference (and `b` not the minimum) yields the
encoding of `a - b`. -/
theorem SInt_Sub_spec :
    (∀ L R, SInt_Sub L R = SInt_Add L (SInt_twos_complement R)) ∧
      ∀ a b : Int, inRange a → inRange b → b ≠ -2 ^ 63 → inRange (a - b) →
        run (lower (SInt_Sub (.intE (encode a)) (.intE (encode b)))) []
          = some [encode (a - b)] := by
  refine ⟨fun L R => rfl, fun a b ha hb hmin hab => ?_⟩
  have hR : ∀ t, run (lower (SInt_twos_complement (.intE (encode b)))) t
      = some (encode (-b) :: t) := by
    intro t
    rw [SInt_twos_complement_run (.intE (encode b)) (encode b) (run_lower_intE _) t,
      negate_value b hb hmin]
  have hnb : inRange (-b) := by
    obtain ⟨h1, h2⟩ := hb
    exact ⟨by omega, by omega⟩
  have hio : inRange (a + -b) := by
    obtain ⟨h1, h2⟩ := hab
    exact ⟨by omega, by omega⟩
  rw [show SInt_Sub (.intE (encode a)) (.intE (encode b))
      = SInt_Add (.intE (encode a)) (SInt_twos_complement (.intE (encode b))) from rfl]
  rw [SInt_Add_run _ _ (encode a) (encode (-b)) (run_lower_intE _) hR]
  rw [if_pos ((add_pred_iff a (-b) ha hnb).mpr hio), add_low a (-b) ha hnb hio]
  rw [show a + -b = a - b by omega]

/-! Execution of `SInt_rshift` on literal operands. -/

theorem lower_SInt_rshift_lit (A k : Nat) :
    lower (SInt_rshift (.intE A) (.intE k)) =
      [Instr.int A] ++ ([.dup, .int 63, .getbit, .cover 1] ++ ([.int k] ++
        ([.shr, .cover 1] ++
          [.ite [.int (2 ^ 64 - 1), .int 64, .int k, .minus, .shl] [.int 0],
            .bitwise_or]))) := by
  simp [SInt_rshift, lower, lowerList]

theorem run_pushInt (v : Nat) (t : List Nat) :
    run [Instr.int v] t = some (v :: t) := by
  simp

/-- First segment of `SInt_rshift`: duplicate the operand, extract its
sign bit, move the operand back on top. -/
theorem run_shiftSegA (v : Nat) (s : List Nat) :
    run [.dup, .int 63, .getbit, .cover 1] (v :: s)
      = some (v :: v / 2 ^ 63 % 2 :: s) := by
  simp only [run_cons, run_nil, runInstr_dup, runInstr_int, runInstr_getbit,
    runInstr_cover_one, Option.some_bind]

/-- Second segment: logical right shift, then bring the sign on top. -/
theorem run_shiftSegB (k v x : Nat) (s : List Nat) :
    run [.shr, .cover 1] (k :: v :: x :: s) = some (x :: v / 2 ^ k :: s) := by
  simp only [run_cons, run_nil, runInstr_shr, runInstr_cover_one, Option.some_bind]

/-- Conditional tail, negative case: the sign bit selects the mask
`(2^64-1) << (64-k)`, which is ORed into the shifted value. -/
theorem run_shiftTail_neg (k L : Nat) (hk : k ≤ 64) (s : List Nat) :
    run [.ite [.int (2 ^ 64 - 1), .int 64, .int k, .minus, .shl] [.int 0],
        .bitwise_or] (1 :: L :: s)
      = some ((L ||| (2 ^ 64 - 1) * 2 ^ (64 - k) % 2 ^ 64) :: s) := by
  rw [run_cons, runInstr_ite, cond_one]
  simp only [run_cons, run_nil, runInstr_int, runInstr_minus, runInstr_shl,
    runInstr_bitwise_or, Option.some_bind, hk, if_true]

/-- Conditional tail, non-negative case: the sign bit selects the zero
word, whose OR leaves the shifted value unchanged. -/
theorem run_shiftTail_pos (k L : Nat) (s : List Nat) :
    run [.ite [.int (2 ^ 64 - 1), .int 64, .int k, .minus, .shl] [.int 0],
        .bitwise_or] (0 :: L :: s)
      = some ((L ||| 0) :: s) := by
  rw [run_cons, runInstr_ite, cond_zero]
  simp only [run_cons, run_nil, runInstr_int, runInstr_bitwise_or, Option.some_bind]

/-! Arithmetic facts for the arithmetic shift. -/

/-- The mask built by shifting the all-ones word left by `64 - k`. -/
theorem rshift_mask (k : Nat) (hk : k ≤ 63) :
    (2 ^ 64 - 1) * 2 ^ (64 - k) % 2 ^ 64 = 2 ^ 64 - 2 ^ (64 - k) := by
  have h1 : (1 : Nat) ≤ 2 ^ (64 - k) := Nat.one_le_two_pow
  have h2 : (2 : Nat) ^ (64 - k) ≤ 2 ^ 64 := Nat.pow_le_pow_right (by norm_num) (by omega)
  generalize 2 ^ (64 - k) = t at h1 h2 ⊢
  omega

/-- Shifted value ORed with the mask is the encoding of the floor
quotient, for a negative operand. -/
theorem rshift_value_neg (a : Int) (k : Nat) (ha : inRange a) (hk : k ≤ 63)
    (hneg : a < 0) :
    encode a / 2 ^ k ||| (2 ^ 64 - 1) * 2 ^ (64 - k) % 2 ^ 64
      = encode (a / 2 ^ k) := by
  have hA := encode_spec a ha
  have hlt := encode_lt a ha
  obtain ⟨h1, h2⟩ := ha
  have hexp : 64 - k + k = 64 := by omega
  have hdvdZ : ((2 : Int) ^ (64 - k)) * 2 ^ k = 2 ^ 64 := by
    rw [← pow_add, hexp]
  have hkpos : (0 : Int) < 2 ^ k := by positivity
  have hc1 : ((2 ^ k : Nat) : Int) = 2 ^ k := by norm_cast
  have hc2 : ((2 ^ (64 - k) : Nat) : Int) = 2 ^ (64 - k) := by norm_cast
  have hXq : ((encode a / 2 ^ k : Nat) : Int) = a / 2 ^ k + ((2 ^ (64 - k) : Nat) : Int) := by
    rw [Int.natCast_div, hA, hc1, hc2, show a % 2 ^ 64 = a + 2 ^ 64 from by omega,
      ← hdvdZ, Int.add_mul_ediv_right _ _ (ne_of_gt hkpos)]
  have hX : encode a / 2 ^ k < 2 ^ (64 - k) := by
    rw [Nat.div_lt_iff_lt_mul (Nat.two_pow_pos k)]
    calc encode a < 2 ^ 64 := hlt
      _ = 2 ^ (64 - k) * 2 ^ k := by rw [← pow_add, hexp]
  have hq1 : -2 ^ 63 ≤ a / 2 ^ k := by
    rw [Int.le_ediv_iff_mul_le hkpos]
    have hk1 : (1 : Int) ≤ 2 ^ k := by omega
    nlinarith
  have hq2 : a / 2 ^ k ≤ -1 := by
    have := Int.ediv_neg' hneg hkpos
    omega
  have hE := encode_spec (a / 2 ^ k) ⟨hq1, by omega⟩
  have hrepr : (2 : Nat) ^ 64 - 2 ^ (64 - k) = 2 ^ (64 - k) * (2 ^ k - 1) := by
    rw [Nat.mul_sub, Nat.mul_one, ← pow_add, hexp]
  rw [rshift_mask k hk, Nat.lor_comm, hrepr,
    ← Nat.mul_add_lt_is_or hX (2 ^ k - 1), ← hrepr]
  have htb : (2 : Nat) ^ (64 - k) ≤ 2 ^ 64 := Nat.pow_le_pow_right (by norm_num) (by omega)
  omega

/-- Shifted value ORed with zero is the encoding of the quotient, for a
non-negative operand. -/
theorem rshift_value_pos (a : Int) (k : Nat) (ha : inRange a) (hpos : 0 ≤ a) :
    encode a / 2 ^ k ||| 0 = encode (a / 2 ^ k) := by
  rw [Nat.or_zero]
  have hA := encode_spec a ha
  obtain ⟨h1, h2⟩ := ha
  have hkpos : (0 : Int) < 2 ^ k := by positivity
  have hq0 : 0 ≤ a / 2 ^ k := Int.ediv_nonneg hpos (le_of_lt hkpos)
  have hq2 : a / 2 ^ k ≤ a := Int.ediv_le_self _ hpos
  have hE := encode_spec (a / 2 ^ k) ⟨by omega, by omega⟩
  have hc1 : ((2 ^ k : Nat) : Int) = 2 ^ k := by norm_cast
  have hXq : ((encode a / 2 ^ k : Nat) : Int) = a / 2 ^ k := by
    rw [Int.natCast_div, hA, hc1, show a % 2 ^ 64 = a from by omega]
  omega

/-- General execution of `SInt_rshift` on literal operands. -/
theorem SInt_rshift_run (a : Int) (k : Nat) (ha : inRange a) (hk : k ≤ 63) :
    run (lower (SInt_rshift (.intE (encode a)) (.intE k))) []
      = some [encode (a / 2 ^ k)] := by
  rw [lower_SInt_rshift_lit, run_append, run_pushInt, Option.some_bind,
    run_append, run_shiftSegA, Option.some_bind,
    run_append, run_pushInt, Option.some_bind,
    run_append, run_shiftSegB, Option.some_bind]
  by_cases hneg : a < 0
  · rw [show encode a / 2 ^ 63 % 2 = 1 from by
      have hA := encode_spec a ha
      obtain ⟨h1, h2⟩ := ha
      omega]
    rw [run_shiftTail_neg k _ (by omega), rshift_value_neg a k ha hk hneg]
  · rw [show encode a / 2 ^ 63 % 2 = 0 from by
      have hA := encode_spec a ha
      obtain ⟨h1, h2⟩ := ha
      omega]
    rw [run_shiftTail_pos, rshift_value_pos a k ha (by omega)]

/-- C2: the code emitted by `SInt_rshift` computes the arithmetic right
shift: for every representable `a` and shift amount `k ≤ 63` it yields
the encoding of the floor quotient `a / 2^k` (Int division by a positive
power is the floor), and for `k = 0` it is the identity on every
representable input, negative inputs included. -/
theorem SInt_rshift_exec (a : Int) (k : Nat) (ha : inRange a) (hk : k ≤ 63) :
    run (lower (SInt_rshift (.intE (encode a)) (.intE k))) []
        = some [encode (a / 2 ^ k)]
      ∧ run (lower (SInt_rshift (.intE (encode a)) (.intE 0))) []
        = some [encode a] := by
  refine ⟨SInt_rshift_run a k ha hk, ?_⟩
  have h0 := SInt_rshift_run a 0 ha (by norm_num)
  rwa [pow_zero, Int.ediv_one] at h0

/-- Witness for C2 at the spec's scenario `RightShift(-8, 1) = -4`. -/
theorem SInt_rshift_exec_witness :
    inRange (-8 : Int) ∧
      run (lower (SInt_rshift (.intE (encode (-8))) (.intE 1))) []
          = some [encode ((-8 : Int) / 2 ^ 1)]
        ∧ run (lower (SInt_rshift (.intE (encode (-8))) (.intE 0))) []
          = some [encode (-8 : Int)] :=
  ⟨by decide, SInt_rshift_exec (-8) 1 (by decide) (by decide)⟩

/-- Witness for C6 at the spec's scenario `Sub(100, 101) = -1`. -/
theorem SInt_Sub_spec_witness :
    SInt_Sub (.intE 0) (.intE 0) = SInt_Add (.intE 0) (SInt_twos_complement (.intE 0)) ∧
      (inRange (100 : Int) ∧ inRange (101 : Int) ∧ (101 : Int) ≠ -2 ^ 63 ∧
        inRange (100 - 101 : Int)) ∧
      run (lower (SInt_Sub (.intE (encode 100)) (.intE (encode 101)))) []
        = some [encode (100 - 101 : Int)] :=
  ⟨SInt_Sub_spec.1 _ _, ⟨by decide, by decide, by decide, by decide⟩,
    SInt_Sub_spec.2 100 101 (by decide) (by decide) (by decide) (by decide)⟩

/-- C3: `decode` inverts `encode` on the whole signed range, and the
pair is a bijection between the signed range and the unsigned 64-bit
word range: `encode` lands in `[0, 2^64)`, and `decode` carries every
word back into the signed range with `encode` as its inverse. -/
theorem decode_encode_bijection :
    (∀ n : Int, inRange n → decode (encode n) = n ∧ encode n < 2 ^ 64) ∧
      ∀ w : Nat, w < 2 ^ 64 → inRange (decode w) ∧ encode (decode w) = w := by
  constructor
  · intro n hn
    have hE := encode_spec n hn
    obtain ⟨h1, h2⟩ := hn
    refine ⟨?_, by omega⟩
    unfold decode
    split <;> omega
  · intro w hw
    unfold decode
    split
    · have h1 : inRange ((w : Int) - 2 ^ 64) := ⟨by omega, by omega⟩
      refine ⟨h1, ?_⟩
      have hE := encode_spec _ h1
      omega
    · have h1 : inRange (w : Int) := ⟨by omega, by omega⟩
      refine ⟨h1, ?_⟩
      have hE := encode_spec _ h1
      omega

/-- Witness for C3 at `n = -5` and `w = 2^63`. -/
theorem decode_encode_bijection_witness :
    (decode (encode (-5)) = -5 ∧ encode (-5) < 2 ^ 64) ∧
      inRange (decode (2 ^ 63)) ∧ encode (decode (2 ^ 63)) = 2 ^ 63 :=
  ⟨decode_encode_bijection.1 (-5) (by decide),
    decode_encode_bijection.2 (2 ^ 63) (by decide)⟩

/-- C4: tree construction through `SInt` fails with the type error
exactly on non-integer host values and with the range error exactly on
integers outside the signed 64-bit range; both failures happen at
construction time in the host (the `Except` result), and no node is
returned on failure, while every in-range integer yields the
push-constant node of its encoding. -/
theorem SInt_errors :
    SInt .nonInt = .error .typeError ∧
      (∀ n : Int, ¬inRange n → SInt (.int n) = .error .rangeError) ∧
      ∀ n : Int, inRange n → SInt (.int n) = .ok (.intE (encode n)) := by
  refine ⟨rfl, fun n hn => ?_, fun n hn => ?_⟩
  · simp only [SInt]
    rw [if_pos (show ¬(-2 ^ 63 ≤ n ∧ n ≤ 2 ^ 63 - 1) from hn)]
  · simp only [SInt]
    rw [if_neg (show ¬¬(-2 ^ 63 ≤ n ∧ n ≤ 2 ^ 63 - 1) from not_not_intro hn)]

/-- Witness for C4 at `n = 2^64` (range error) and `n = 5` (success). -/
theorem SInt_errors_witness :
    SInt (.int (2 ^ 64)) = .error .rangeError ∧
      SInt (.int 5) = .ok (.intE (encode 5)) :=
  ⟨SInt_errors.2.1 (2 ^ 64) (by decide), SInt_errors.2.2 5 (by decide)⟩

/-- C7: on negative in-range input, `encode` computes
`((|n| XOR (2^64-1)) + 1) mod 2^64`; on non-negative input it returns
the value unchanged; and on the whole signed range this equals reduction
of `n` mod `2^64`. -/
theorem encode_def_and_mod :
    (∀ n : Int, n < 0 → encode n = ((n.natAbs ^^^ (2 ^ 64 - 1)) + 1) % 2 ^ 64) ∧
      (∀ n : Int, 0 ≤ n → encode n = n.toNat) ∧
      ∀ n : Int, inRange n → (encode n : Int) = n % 2 ^ 64 := by
  refine ⟨fun n hn => ?_, fun n hn => ?_, fun n hn => encode_spec n hn⟩
  · unfold encode
    rw [if_pos hn]
  · unfold encode
    rw [if_neg (by omega)]

/-- Witness for C7 at `n = -3` and `n = 4`. -/
theorem encode_def_and_mod_witness :
    encode (-3) = (((-3 : Int).natAbs ^^^ (2 ^ 64 - 1)) + 1) % 2 ^ 64 ∧
      encode 4 = (4 : Int).toNat ∧ (encode (-3) : Int) = (-3) % 2 ^ 64 :=
  ⟨encode_def_and_mod.1 (-3) (by decide), encode_def_and_mod.2.1 4 (by decide),
    encode_def_and_mod.2.2 (-3) (by decide)⟩

/-- C8: lowering `SInt_Add` embeds each operand sub-tree exactly once:
the emitted sequence is the first operand's code, then a fixed segment
that obtains its sign bit from a stack duplicate, then the second
operand's code, then a fixed closing segment (again using duplicates for
the remaining sign bits); the surrounding segments are constant lists
independent of the operands. -/
theorem SInt_Add_single_evaluation :
    ∀ L R : Expr, lower (SInt_Add L R) =
      lower L ++ [.dup, .int 63, .getbit, .dup, .uncover 2] ++ lower R ++
        [.dup, .int 63, .getbit, .cover 3, .addw, .dup, .int 63, .getbit,
          .cover 5, .cover 5, .pop, .bitwise_xor, .cover 2, .bitwise_xor,
          .logic_not, .logic_or, .assert_] := by
  intro L R
  simp [SInt_Add, lower, lowerList]

/-- Helper: lowering a list of operands is the concatenation of the
operands' lowerings, in order. -/
theorem lowerList_eq_join (ins : List Expr) :
    lowerList ins = (ins.map lower).flatten := by
  induction ins with
  | nil => simp [lowerList]
  | cons e es ih => simp [lowerList, ih]

/-- C9: a `ParametrizedLeafExpr` node lowers to its operand sub-nodes'
code, concatenated in the given order, followed by the single opcode
(with its immediate arguments) and nothing else; its declared output
type is exactly the caller-supplied `output_type`. -/
theorem parametrizedLeafExpr_spec :
    ∀ (op : Instr) (t : TealType) (ins : List Expr),
      lower (.parametrizedLeafExpr op t ins) = (ins.map lower).flatten ++ [op] ∧
        typeOf (.parametrizedLeafExpr op t ins) = t := by
  intro op t ins
  exact ⟨by simp [lower, lowerList_eq_join], rfl⟩

/-- C10: lowering `SInt_rshift` embeds the shift-amount sub-tree `K` in
two distinct positions: once before the logical right shift, and a
second time inside the conditional's mask-building branch
`(2^64-1) << (64 - K)`; a compound shift amount is therefore evaluated
twice by the generated program when the branch runs. -/
theorem SInt_rshift_double_embedding :
    ∀ L K : Expr, lower (SInt_rshift L K) =
      lower L ++ [.dup, .int 63, .getbit, .cover 1] ++ lower K ++
        [.shr, .cover 1,
          .ite ([.int (2 ^ 64 - 1), .int 64] ++ lower K ++ [.minus, .shl])
            [.int 0],
          .bitwise_or] := by
  intro L K
  simp [SInt_rshift, lower, lowerList]

end PyTealUtils
